import Mathlib

/-!
Shallow embedding of the `lir` statistical core (src/liar/util.py and
src/lir/transformers.py) and proofs about its claimed properties.

Feature values are modelled as real numbers, class labels as integers,
row indices as naturals.  The labels produced by `Xn_to_Xy` are built from
`np.int8` arrays, but numpy's value-based casting promotes the product with
the Python int group index to a dtype wide enough to hold it exactly, so
each label is modelled as the exact group index.
-/

/-! ### Label-Format Converter (src/liar/util.py) -/

/-- Model of `Xn_to_Xy(*Xn)` from src/liar/util.py: `X` is the concatenation
of the groups and `y` concatenates, for each group `i`, one label
`np.ones(len, dtype=np.int8) * i` per row of the group.  numpy's value-based
casting promotes `int8_array * i` to a dtype that holds the Python int `i`
exactly (and `np.concatenate` promotes to the common dtype), so every label
carries the exact group index. -/
def Xn_to_Xy {α : Type} (Xn : List (List α)) : List α × List Int :=
  (Xn.flatten, Xn.enum.flatMap fun gi => List.replicate gi.2.length (gi.1 : Int))

/-- Error taxonomy of the spec: `assert` on array shapes versus `assert`
on value constraints. -/
inductive ConvError where
  | shapeMismatch
  | valueConstraint
deriving DecidableEq, Repr

/-- Insert a value into a strictly sorted list, keeping it strictly
sorted (helper for `uniqueSorted`). -/
def insertUnique (x : Int) : List Int → List Int
  | [] => [x]
  | a :: t => if x < a then x :: a :: t else if x = a then a :: t else a :: insertUnique x t

/-- Model of `np.unique(y)`: the distinct values of `y` in ascending order. -/
def uniqueSorted (y : List Int) : List Int := y.foldr insertUnique []

/-- Boolean-mask row selection `X[(y == v).reshape(-1)]`. -/
def selectRows {α : Type} (X : List α) (y : List Int) (v : Int) : List α :=
  ((X.zip y).filter fun p => p.2 == v).map Prod.fst

/-- Model of `Xy_to_Xn(X, y)` from src/liar/util.py: checks the row counts match,
checks `y` has exactly two distinct values, then returns one matrix per
distinct value in ascending order. -/
def Xy_to_Xn {α : Type} (X : List α) (y : List Int) : Except ConvError (List (List α)) :=
  if X.length ≠ y.length then .error .shapeMismatch
  else if (uniqueSorted y).length ≠ 2 then .error .valueConstraint
  else .ok ((uniqueSorted y).map (selectRows X y))

/-! #### Properties of `uniqueSorted` -/

theorem mem_insertUnique {x b : Int} {l : List Int} :
    b ∈ insertUnique x l ↔ b = x ∨ b ∈ l := by
  induction l with
  | nil => simp [insertUnique]
  | cons a t ih =>
    by_cases h1 : x < a
    · simp [insertUnique, h1]
    · by_cases h2 : x = a
      · subst h2
        rw [insertUnique, if_neg h1, if_pos rfl]
        simp only [List.mem_cons]
        tauto
      · simp only [insertUnique, if_neg h1, if_neg h2, List.mem_cons, ih]
        tauto

theorem mem_uniqueSorted {b : Int} {y : List Int} :
    b ∈ uniqueSorted y ↔ b ∈ y := by
  induction y with
  | nil => simp [uniqueSorted]
  | cons a t ih =>
    simp only [uniqueSorted, List.foldr_cons] at *
    rw [mem_insertUnique, ih, List.mem_cons]

theorem sorted_insertUnique {x : Int} {l : List Int}
    (h : l.Sorted (· < ·)) : (insertUnique x l).Sorted (· < ·) := by
  induction l with
  | nil => simp [insertUnique]
  | cons a t ih =>
    rw [List.sorted_cons] at h
    by_cases h1 : x < a
    · rw [insertUnique, if_pos h1, List.sorted_cons]
      refine ⟨?_, by rw [List.sorted_cons]; exact h⟩
      intro b hb
      rcases List.mem_cons.mp hb with rfl | hb
      · exact h1
      · exact h1.trans (h.1 b hb)
    · by_cases h2 : x = a
      · subst h2
        rw [insertUnique, if_neg h1, if_pos rfl, List.sorted_cons]
        exact h
      · have hax : a < x := by omega
        rw [insertUnique, if_neg h1, if_neg h2, List.sorted_cons]
        refine ⟨?_, ih h.2⟩
        intro b hb
        rcases mem_insertUnique.mp hb with rfl | hb
        · exact hax
        · exact h.1 b hb

theorem sorted_uniqueSorted (y : List Int) : (uniqueSorted y).Sorted (· < ·) := by
  induction y with
  | nil => simp [uniqueSorted]
  | cons a t ih => exact sorted_insertUnique ih

theorem nodup_uniqueSorted (y : List Int) : (uniqueSorted y).Nodup :=
  (sorted_uniqueSorted y).nodup

theorem length_uniqueSorted (y : List Int) :
    (uniqueSorted y).length = y.toFinset.card := by
  have h1 : (uniqueSorted y).toFinset = y.toFinset := by
    ext b
    simp [List.mem_toFinset, mem_uniqueSorted]
  rw [← h1, List.toFinset_card_of_nodup (nodup_uniqueSorted y)]

theorem getD_replicate_of_lt {α : Type} {m k : Nat} {a d : α} (h : k < m) :
    (List.replicate m a).getD k d = a := by
  induction m generalizing k with
  | zero => omega
  | succ m ih =>
    cases k with
    | zero => simp [List.replicate_succ]
    | succ k =>
      rw [List.replicate_succ, List.getD_cons_succ]
      exact ih (by omega)

/-! #### C3: error behaviour of the converter -/

/-- C3: `Xy_to_Xn` fails with a `shapeMismatch` error when the row counts of
`X` and `y` differ; with matching row counts it fails with a
`valueConstraint` error when `y` does not have exactly two distinct values,
and succeeds when it does. -/
theorem Xy_to_Xn_error_cases {α : Type} (X : List α) (y : List Int) :
    (X.length ≠ y.length → Xy_to_Xn X y = .error .shapeMismatch) ∧
    (X.length = y.length → y.toFinset.card ≠ 2 →
      Xy_to_Xn X y = .error .valueConstraint) ∧
    (X.length = y.length → y.toFinset.card = 2 → ∃ g, Xy_to_Xn X y = .ok g) := by
  refine ⟨fun h => ?_, fun h hc => ?_, fun h hc => ?_⟩
  · rw [Xy_to_Xn, if_pos h]
  · have h1 : ¬X.length ≠ y.length := by omega
    have h2 : (uniqueSorted y).length ≠ 2 := by rw [length_uniqueSorted]; exact hc
    rw [Xy_to_Xn, if_neg h1, if_pos h2]
  · have h1 : ¬X.length ≠ y.length := by omega
    have h2 : ¬(uniqueSorted y).length ≠ 2 := by rw [length_uniqueSorted]; omega
    exact ⟨_, by rw [Xy_to_Xn, if_neg h1, if_neg h2]⟩

/-- Witness for `Xy_to_Xn_error_cases` at concrete inputs. -/
theorem Xy_to_Xn_error_cases_witness :
    Xy_to_Xn [(0 : Int)] ([] : List Int) = .error .shapeMismatch ∧
    Xy_to_Xn [(0 : Int)] [5] = .error .valueConstraint ∧
    ∃ g, Xy_to_Xn [(0 : Int), 1] [5, 7] = .ok g :=
  ⟨(Xy_to_Xn_error_cases [(0 : Int)] ([] : List Int)).1 (by decide),
   (Xy_to_Xn_error_cases [(0 : Int)] [5]).2.1 (by decide) (by decide),
   (Xy_to_Xn_error_cases [(0 : Int), 1] [5, 7]).2.2 (by decide) (by decide)⟩

/-! #### C2: labels assigned by `Xn_to_Xy` -/

/-- Number of rows in the groups preceding group `i`. -/
def groupOffset {α : Type} (Xn : List (List α)) (i : Nat) : Nat :=
  ((Xn.take i).map List.length).sum

theorem labels_enumFrom_getD {α : Type} (Xn : List (List α)) (n i k : Nat)
    (hi : i < Xn.length) (hk : k < (Xn.getD i []).length) :
    ((Xn.enumFrom n).flatMap fun gi =>
        List.replicate gi.2.length ((gi.1 : Int))).getD (groupOffset Xn i + k) 0 =
      ((n + i : Nat) : Int) := by
  induction Xn generalizing n i with
  | nil => simp at hi
  | cons g t ih =>
    rw [List.enumFrom_cons, List.flatMap_cons]
    cases i with
    | zero =>
      have hk0 : k < g.length := by simpa using hk
      have hoff : groupOffset (g :: t) 0 + k = k := by simp [groupOffset]
      rw [hoff, List.getD_append _ _ _ _ (by simpa using hk0)]
      rw [getD_replicate_of_lt hk0]
      simp
    | succ j =>
      have hoff : groupOffset (g :: t) (j + 1) + k =
          (List.replicate g.length ((n : Int))).length + (groupOffset t j + k) := by
        simp [groupOffset, List.take_succ_cons]
        omega
      rw [hoff, List.getD_append_right _ _ _ _ (Nat.le_add_right _ _),
        Nat.add_sub_cancel_left]
      have := ih (n + 1) j (by simpa using hi) (by simpa using hk)
      rw [this]
      congr 1
      omega

/-- C2: `Xn_to_Xy` assigns every row of group `i` the label `i` itself —
the exact integer group index, with no limit on the number of groups, and
in particular also when the index exceeds 127. -/
theorem Xn_to_Xy_label {α : Type} (Xn : List (List α)) (i k : Nat)
    (hi : i < Xn.length) (hk : k < (Xn.getD i []).length) :
    (Xn_to_Xy Xn).2.getD (groupOffset Xn i + k) 0 = (i : Int) := by
  have h := labels_enumFrom_getD Xn 0 i k hi hk
  rw [Xn_to_Xy, List.enum_eq_enumFrom]
  simpa using h

/-- Witness for `Xn_to_Xy_label` at a concrete input with 129 one-row
groups: the row of group 128 carries label 128 exactly. -/
theorem Xn_to_Xy_label_witness :
    (Xn_to_Xy (List.replicate 129 [(0 : Int)])).2.getD
      (groupOffset (List.replicate 129 [(0 : Int)]) 128 + 0) 0 = (128 : Int) :=
  Xn_to_Xy_label (List.replicate 129 [(0 : Int)]) 128 0 (by simp)
    (by rw [getD_replicate_of_lt (by norm_num)]; norm_num)

/-! #### C6: round-trip of the two conversions -/

theorem uniqueSorted_replicate_zero_one {n m : Nat} (hn : 1 ≤ n) (hm : 1 ≤ m) :
    uniqueSorted (List.replicate n 0 ++ List.replicate m 1) = [0, 1] := by
  have h1 : uniqueSorted (List.replicate m (1 : Int)) = [1] := by
    induction m with
    | zero => omega
    | succ m ihm =>
      cases m with
      | zero => rfl
      | succ p =>
        rw [List.replicate_succ, uniqueSorted, List.foldr_cons]
        rw [show List.foldr insertUnique [] (List.replicate (p + 1) (1 : Int)) =
          uniqueSorted (List.replicate (p + 1) (1 : Int)) from rfl]
        rw [ihm (by omega)]
        rfl
  rw [uniqueSorted, List.foldr_append]
  rw [show List.foldr insertUnique [] (List.replicate m (1 : Int)) =
    uniqueSorted (List.replicate m (1 : Int)) from rfl, h1]
  induction n with
  | zero => omega
  | succ n ihn =>
    cases n with
    | zero => rfl
    | succ p =>
      rw [List.replicate_succ, List.foldr_cons, ihn (by omega)]
      rfl

theorem filter_zip_replicate {α : Type} (l : List α) (v w : Int) :
    ((l.zip (List.replicate l.length v)).filter fun p => p.2 == w).map Prod.fst =
      if v = w then l else [] := by
  induction l with
  | nil => simp
  | cons a t ih =>
    rw [List.length_cons, List.replicate_succ, List.zip_cons_cons, List.filter_cons]
    by_cases h : v = w
    · subst h
      simp [List.filter_cons, ih]
    · have hb : ((a, v).2 == w) = false := by simpa using h
      rw [hb]
      simpa [h] using ih

theorem selectRows_append_replicate {α : Type} (A B : List α) (w : Int) :
    selectRows (A ++ B) (List.replicate A.length 0 ++ List.replicate B.length 1) w =
      (if (0 : Int) = w then A else []) ++ (if (1 : Int) = w then B else []) := by
  rw [selectRows, List.zip_append (by simp), List.filter_append, List.map_append,
    filter_zip_replicate, filter_zip_replicate]

theorem Xn_to_Xy_two_groups {α : Type} (A B : List α) :
    Xn_to_Xy [A, B] =
      (A ++ B, List.replicate A.length 0 ++ List.replicate B.length 1) := by
  rw [Xn_to_Xy, Prod.mk.injEq]
  refine ⟨by simp, ?_⟩
  rw [List.enum_eq_enumFrom, List.enumFrom_cons, List.enumFrom_cons]
  show List.replicate A.length ((0 : Nat) : Int) ++
      (List.replicate B.length ((1 : Nat) : Int) ++ []) = _
  rw [List.append_nil, show ((0 : Nat) : Int) = 0 from rfl,
    show ((1 : Nat) : Int) = 1 from rfl]

/-- C6 counterexample: with an empty first group the round trip does not
recover the groups — the flat-to-grouped conversion fails, because the
flat labels then have a single distinct value. -/
theorem roundTrip_counterexample :
    Xy_to_Xn (Xn_to_Xy [([] : List Int), [5]]).1 (Xn_to_Xy [([] : List Int), [5]]).2 =
      .error .valueConstraint := by rfl

/-- C6 (amended): for every pair of nonempty groups, converting to flat
format and back recovers two matrices whose row multisets equal those of
the original groups, group for group. -/
theorem roundTrip_two_groups {α : Type} (A B : List α) (hA : A ≠ []) (hB : B ≠ []) :
    ∃ G0 G1, Xy_to_Xn (Xn_to_Xy [A, B]).1 (Xn_to_Xy [A, B]).2 = .ok [G0, G1] ∧
      G0.Perm A ∧ G1.Perm B := by
  refine ⟨A, B, ?_, List.Perm.refl A, List.Perm.refl B⟩
  rw [Xn_to_Xy_two_groups]
  have hu : uniqueSorted (List.replicate A.length 0 ++ List.replicate B.length 1) = [0, 1] :=
    uniqueSorted_replicate_zero_one (List.length_pos.mpr hA) (List.length_pos.mpr hB)
  rw [Xy_to_Xn, if_neg (by simp), if_neg (by rw [hu]; simp), hu]
  simp only [List.map_cons, List.map_nil, selectRows_append_replicate]
  norm_num

/-- Witness for `roundTrip_two_groups` at a concrete input. -/
theorem roundTrip_two_groups_witness :
    ∃ G0 G1,
      Xy_to_Xn (Xn_to_Xy [[(3 : Int)], [4, 5]]).1 (Xn_to_Xy [[(3 : Int)], [4, 5]]).2 =
        .ok [G0, G1] ∧ G0.Perm [(3 : Int)] ∧ G1.Perm [4, 5] :=
  roundTrip_two_groups [(3 : Int)] [4, 5] (by simp) (by simp)

/-! #### C10: `Xy_to_Xn` preserves within-group row order -/

/-- Rows of `X` whose position carries label `v`, listed in position order
(an index-level description, independent of the mask implementation). -/
def rowsWithLabel {α : Type} (d : α) (X : List α) (y : List Int) (v : Int) : List α :=
  ((List.range y.length).filter fun i => y.getD i 0 == v).map fun i => X.getD i d

theorem selectRows_eq_rowsWithLabel {α : Type} (d : α) (X : List α) (y : List Int)
    (h : X.length = y.length) (v : Int) :
    selectRows X y v = rowsWithLabel d X y v := by
  induction y generalizing X with
  | nil =>
    have hX : X = [] := List.length_eq_zero.mp h
    subst hX
    rfl
  | cons b t ih =>
    cases X with
    | nil => simp at h
    | cons x Xt =>
      have hlen : Xt.length = t.length := by simpa using h
      rw [selectRows, List.zip_cons_cons, List.filter_cons]
      rw [rowsWithLabel, List.length_cons, List.range_succ_eq_map, List.filter_cons,
        List.filter_map]
      have e1 : ((fun i => (b :: t).getD i 0 == v) ∘ Nat.succ) =
          (fun i => t.getD i 0 == v) := by
        funext i
        simp
      rw [e1]
      have e2 : ((fun i => (x :: Xt).getD i d) ∘ Nat.succ) = fun i => Xt.getD i d := by
        funext i
        simp
      have hsel : List.map Prod.fst (List.filter (fun p => p.2 == v) (Xt.zip t)) =
          selectRows Xt t v := rfl
      by_cases hb : b = v
      · rw [if_pos (by simpa using hb), if_pos (by simpa using hb)]
        rw [List.map_cons, List.map_cons, List.map_map, e2, hsel, ih Xt hlen]
        rfl
      · rw [if_neg (by simpa using hb), if_neg (by simpa using hb), List.map_map, e2,
          hsel, ih Xt hlen]
        rfl

theorem uniqueSorted_eq_pair {y : List Int} {v0 v1 : Int} (hv : v0 < v1)
    (hm : ∀ v : Int, v ∈ y ↔ v = v0 ∨ v = v1) : uniqueSorted y = [v0, v1] := by
  have hmem : ∀ v : Int, v ∈ uniqueSorted y ↔ v = v0 ∨ v = v1 := by
    intro v; rw [mem_uniqueSorted]; exact hm v
  have hs := sorted_uniqueSorted y
  have h0 : v0 ∈ uniqueSorted y := (hmem v0).mpr (Or.inl rfl)
  have h1 : v1 ∈ uniqueSorted y := (hmem v1).mpr (Or.inr rfl)
  rcases hu : uniqueSorted y with _ | ⟨a, _ | ⟨b, u⟩⟩
  · rw [hu] at h0; simp at h0
  · rw [hu] at h0 h1
    simp at h0 h1
    omega
  · rw [hu] at hs h0 h1 hmem
    rw [List.sorted_cons] at hs
    obtain ⟨ha, hs1⟩ := hs
    rw [List.sorted_cons] at hs1
    obtain ⟨hbu, _⟩ := hs1
    have hab : a < b := ha b (by simp)
    have hav : a = v0 ∨ a = v1 := (hmem a).mp (by simp)
    have hbv : b = v0 ∨ b = v1 := (hmem b).mp (by simp)
    have ha0 : a = v0 := by omega
    have hb1 : b = v1 := by omega
    have hu0 : u = [] := by
      rcases u with _ | ⟨c, u2⟩
      · rfl
      · exfalso
        have hc : c = v0 ∨ c = v1 := (hmem c).mp (by simp)
        have hbc : b < c := hbu c (by simp)
        omega
    rw [ha0, hb1, hu0]

/-- C10: on valid input (matching row counts, label set exactly the two
distinct values `v0 < v1`) `Xy_to_Xn` returns, for each label value in
ascending order, exactly the rows of `X` bearing that label in their
original top-to-bottom order. -/
theorem Xy_to_Xn_order {α : Type} (d : α) (X : List α) (y : List Int) (v0 v1 : Int)
    (hlen : X.length = y.length) (hv : v0 < v1) (hset : y.toFinset = {v0, v1}) :
    Xy_to_Xn X y = .ok [rowsWithLabel d X y v0, rowsWithLabel d X y v1] := by
  have hm : ∀ v : Int, v ∈ y ↔ v = v0 ∨ v = v1 := by
    intro v
    rw [← List.mem_toFinset, hset]
    simp
  have hu : uniqueSorted y = [v0, v1] := uniqueSorted_eq_pair hv hm
  rw [Xy_to_Xn, if_neg (by omega), if_neg (by rw [hu]; simp), hu]
  simp only [List.map_cons, List.map_nil]
  rw [selectRows_eq_rowsWithLabel d X y hlen, selectRows_eq_rowsWithLabel d X y hlen]

/-- Witness for `Xy_to_Xn_order` at a concrete input. -/
theorem Xy_to_Xn_order_witness :
    Xy_to_Xn [(10 : Int), 20, 30] [7, 5, 7] =
      .ok [rowsWithLabel 0 [(10 : Int), 20, 30] [7, 5, 7] 5,
           rowsWithLabel 0 [(10 : Int), 20, 30] [7, 5, 7] 7] :=
  Xy_to_Xn_order 0 [(10 : Int), 20, 30] [7, 5, 7] 5 7 (by decide) (by decide) (by decide)

/-! ### Instance Pairing Engine (src/lir/transformers.py, `InstancePairing`) -/

/-- The `different_source_limit` configuration value: `None`, the reserved
string `'balanced'`, or a plain integer. -/
inductive DsLimit where
  | noLimit
  | balanced
  | num (k : Nat)
deriving DecidableEq, Repr

/-- Model of `np.array(np.meshgrid(np.arange(n), np.arange(n))).T.reshape(-1, 2)`:
all ordered index pairs `(i, j)`, `i` outer, `j` inner. -/
def allPairs (n : Nat) : List (Nat × Nat) :=
  (List.range n).flatMap fun i => (List.range n).map fun j => (i, j)

/-- Predicate `same_source`: `y[i] == y[j]`. -/
def sameSource (y : List Int) (p : Nat × Nat) : Bool :=
  y.getD p.1 0 == y.getD p.2 0

/-- Candidate list `rows_same`: canonical (`index[0] < index[1]`) pairs with equal labels,
in enumeration order. -/
def rowsSame (y : List Int) : List (Nat × Nat) :=
  (allPairs y.length).filter fun p => decide (p.1 < p.2) && sameSource y p

/-- Candidate list `rows_diff`: canonical (`index[0] < index[1]`) pairs with distinct
labels, in enumeration order. -/
def rowsDiff (y : List Int) : List (Nat × Nat) :=
  (allPairs y.length).filter fun p => decide (p.1 < p.2) && !sameSource y p

/-- Contract of `np.random.choice(rows, k, replace=False)`: on a
duplicate-free row list it returns `k` distinct rows drawn from the list.
The random source is abstracted as the function `pick`. -/
def ValidPick (pick : List (Nat × Nat) → Nat → List (Nat × Nat)) : Prop :=
  ∀ l k, l.Nodup → k ≤ l.length →
    (pick l k).length = k ∧ (pick l k).Nodup ∧ ∀ p ∈ pick l k, p ∈ l

/-- One concrete admissible draw: keep the first `k` rows. -/
def takeFirst (l : List (Nat × Nat)) (k : Nat) : List (Nat × Nat) := l.take k

theorem validPick_takeFirst : ValidPick takeFirst := by
  intro l k hnd hk
  refine ⟨?_, (List.take_sublist k l).nodup hnd, fun p hp => (List.take_sublist k l).mem hp⟩
  rw [takeFirst, List.length_take]
  omega

/-- Step 4 of `InstancePairing.transform`: the same-source rows kept
after the `same_source_limit` subsampling. -/
def keptSame (ss : Option Nat)
    (pick : List (Nat × Nat) → Nat → List (Nat × Nat)) (y : List Int) :
    List (Nat × Nat) :=
  match ss with
  | none => rowsSame y
  | some k => if (rowsSame y).length > k then pick (rowsSame y) k else rowsSame y

/-- The effective different-source cap (the chained conditional of
line 92 of transformers.py). -/
def dsCap (dsl : DsLimit) (sameLen diffLen : Nat) : Nat :=
  match dsl with
  | .noLimit => diffLen
  | .balanced => sameLen
  | .num k => k

/-- Step 5 of `InstancePairing.transform`: the different-source rows kept
after applying the effective cap. -/
def keptDiff (ss : Option Nat) (dsl : DsLimit)
    (pick : List (Nat × Nat) → Nat → List (Nat × Nat)) (y : List Int) :
    List (Nat × Nat) :=
  if (rowsDiff y).length > dsCap dsl (keptSame ss pick y).length (rowsDiff y).length then
    pick (rowsDiff y) (dsCap dsl (keptSame ss pick y).length (rowsDiff y).length)
  else rowsDiff y

/-- The `self.pairing` index table: kept same-source rows first, then kept
different-source rows. -/
def pairingTable (ss : Option Nat) (dsl : DsLimit)
    (pick : List (Nat × Nat) → Nat → List (Nat × Nat)) (y : List Int) :
    List (Nat × Nat) :=
  keptSame ss pick y ++ keptDiff ss dsl pick y

/-- The returned label vector: `1` per kept same-source pair followed by
`0` per kept different-source pair. -/
def pairingLabels (ss : Option Nat) (dsl : DsLimit)
    (pick : List (Nat × Nat) → Nat → List (Nat × Nat)) (y : List Int) :
    List Nat :=
  List.replicate (keptSame ss pick y).length 1 ++
    List.replicate (keptDiff ss dsl pick y).length 0

/-- The returned paired tensor: the two indexed rows of `X` stacked along a
new trailing axis. -/
def pairedTensor (X : List (List Real)) (ss : Option Nat) (dsl : DsLimit)
    (pick : List (Nat × Nat) → Nat → List (Nat × Nat)) (y : List Int) :
    List (List Real × List Real) :=
  (pairingTable ss dsl pick y).map fun p => (X.getD p.1 [], X.getD p.2 [])

/-! #### Structural lemmas about the candidate pair lists -/

theorem mem_allPairs {n : Nat} {p : Nat × Nat} :
    p ∈ allPairs n ↔ p.1 < n ∧ p.2 < n := by
  rw [allPairs, List.mem_flatMap]
  constructor
  · rintro ⟨i, hi, hp⟩
    rw [List.mem_map] at hp
    obtain ⟨j, hj, rfl⟩ := hp
    rw [List.mem_range] at hi hj
    exact ⟨hi, hj⟩
  · rintro ⟨h1, h2⟩
    exact ⟨p.1, List.mem_range.mpr h1, List.mem_map.mpr ⟨p.2, List.mem_range.mpr h2, rfl⟩⟩

theorem nodup_allPairs (n : Nat) : (allPairs n).Nodup := by
  rw [allPairs, List.nodup_flatMap]
  constructor
  · intro i _
    exact (List.nodup_range n).map (fun a b h => by simpa using h)
  · apply List.Pairwise.imp ?_ (List.nodup_range n)
    intro a b hab
    intro p hp hq
    rw [List.mem_map] at hp hq
    obtain ⟨j1, _, rfl⟩ := hp
    obtain ⟨j2, _, h2⟩ := hq
    exact hab (by simpa using congrArg Prod.fst h2.symm)

theorem nodup_rowsSame (y : List Int) : (rowsSame y).Nodup :=
  (nodup_allPairs y.length).filter _

theorem nodup_rowsDiff (y : List Int) : (rowsDiff y).Nodup :=
  (nodup_allPairs y.length).filter _

theorem mem_rowsSame {y : List Int} {p : Nat × Nat} :
    p ∈ rowsSame y ↔ (p.1 < p.2 ∧ p.2 < y.length) ∧ y.getD p.1 0 = y.getD p.2 0 := by
  rw [rowsSame, List.mem_filter, mem_allPairs]
  simp only [Bool.and_eq_true, decide_eq_true_eq, sameSource, beq_iff_eq]
  constructor
  · rintro ⟨⟨h1, h2⟩, h3, h4⟩
    exact ⟨⟨h3, h2⟩, h4⟩
  · rintro ⟨⟨h3, h2⟩, h4⟩
    exact ⟨⟨h3.trans h2, h2⟩, h3, h4⟩

theorem mem_rowsDiff {y : List Int} {p : Nat × Nat} :
    p ∈ rowsDiff y ↔ (p.1 < p.2 ∧ p.2 < y.length) ∧ y.getD p.1 0 ≠ y.getD p.2 0 := by
  rw [rowsDiff, List.mem_filter, mem_allPairs]
  simp only [Bool.and_eq_true, decide_eq_true_eq, Bool.not_eq_true', sameSource,
    beq_eq_false_iff_ne, ne_eq]
  constructor
  · rintro ⟨⟨h1, h2⟩, h3, h4⟩
    exact ⟨⟨h3, h2⟩, h4⟩
  · rintro ⟨⟨h3, h2⟩, h4⟩
    exact ⟨⟨h3.trans h2, h2⟩, h3, h4⟩

theorem keptSame_subset {ss : Option Nat}
    {pick : List (Nat × Nat) → Nat → List (Nat × Nat)} (hpick : ValidPick pick)
    {y : List Int} {p : Nat × Nat} (hp : p ∈ keptSame ss pick y) :
    p ∈ rowsSame y := by
  cases ss with
  | none => exact hp
  | some k =>
    simp only [keptSame] at hp
    by_cases h : (rowsSame y).length > k
    · rw [if_pos h] at hp
      exact (hpick (rowsSame y) k (nodup_rowsSame y) (by omega)).2.2 p hp
    · rw [if_neg h] at hp
      exact hp

theorem keptSame_nodup {ss : Option Nat}
    {pick : List (Nat × Nat) → Nat → List (Nat × Nat)} (hpick : ValidPick pick)
    (y : List Int) : (keptSame ss pick y).Nodup := by
  cases ss with
  | none => exact nodup_rowsSame y
  | some k =>
    simp only [keptSame]
    by_cases h : (rowsSame y).length > k
    · rw [if_pos h]
      exact (hpick (rowsSame y) k (nodup_rowsSame y) (by omega)).2.1
    · rw [if_neg h]
      exact nodup_rowsSame y

theorem keptDiff_subset {ss : Option Nat} {dsl : DsLimit}
    {pick : List (Nat × Nat) → Nat → List (Nat × Nat)} (hpick : ValidPick pick)
    {y : List Int} {p : Nat × Nat} (hp : p ∈ keptDiff ss dsl pick y) :
    p ∈ rowsDiff y := by
  rw [keptDiff] at hp
  by_cases h : (rowsDiff y).length > dsCap dsl (keptSame ss pick y).length (rowsDiff y).length
  · rw [if_pos h] at hp
    exact (hpick (rowsDiff y) _ (nodup_rowsDiff y) (by omega)).2.2 p hp
  · rw [if_neg h] at hp
    exact hp

theorem keptDiff_nodup {ss : Option Nat} {dsl : DsLimit}
    {pick : List (Nat × Nat) → Nat → List (Nat × Nat)} (hpick : ValidPick pick)
    (y : List Int) : (keptDiff ss dsl pick y).Nodup := by
  rw [keptDiff]
  by_cases h : (rowsDiff y).length > dsCap dsl (keptSame ss pick y).length (rowsDiff y).length
  · rw [if_pos h]
    exact (hpick (rowsDiff y) _ (nodup_rowsDiff y) (by omega)).2.1
  · rw [if_neg h]
    exact nodup_rowsDiff y

/-! #### C4: canonical ordering and no duplicate unordered pairs -/

/-- C4: for every admissible random source and every configuration, every
row of the pairing index table satisfies `index[0] < index[1]`, and no
unordered pair of row indices appears in more than one row (no self-pairs,
no duplicates). -/
theorem pairingTable_canonical (ss : Option Nat) (dsl : DsLimit)
    (pick : List (Nat × Nat) → Nat → List (Nat × Nat)) (hpick : ValidPick pick)
    (y : List Int) :
    (∀ p ∈ pairingTable ss dsl pick y, p.1 < p.2) ∧
    (pairingTable ss dsl pick y).Pairwise
      (fun p q => p ≠ q ∧ p ≠ (q.2, q.1)) := by
  have hcan : ∀ p ∈ pairingTable ss dsl pick y, p.1 < p.2 := by
    intro p hp
    rcases List.mem_append.mp hp with hp1 | hp2
    · exact (mem_rowsSame.mp (keptSame_subset hpick hp1)).1.1
    · exact (mem_rowsDiff.mp (keptDiff_subset hpick hp2)).1.1
  refine ⟨hcan, ?_⟩
  have hnd : (pairingTable ss dsl pick y).Nodup := by
    refine (keptSame_nodup hpick y).append (keptDiff_nodup hpick y) ?_
    rw [List.disjoint_left]
    intro p hp hq
    have h1 := (mem_rowsSame.mp (keptSame_subset hpick hp)).2
    have h2 := (mem_rowsDiff.mp (keptDiff_subset hpick hq)).2
    exact h2 h1
  refine hnd.imp_of_mem ?_
  intro p q hp hq hne
  refine ⟨hne, ?_⟩
  intro heq
  have h1 := hcan p hp
  have h2 := hcan q hq
  rw [heq] at h1
  simp only at h1
  omega

/-- Witness for `pairingTable_canonical` at a concrete input. -/
theorem pairingTable_canonical_witness :
    (∀ p ∈ pairingTable (some 1) (DsLimit.num 2) takeFirst [0, 0, 1, 1], p.1 < p.2) ∧
    (pairingTable (some 1) (DsLimit.num 2) takeFirst [0, 0, 1, 1]).Pairwise
      (fun p q => p ≠ q ∧ p ≠ (q.2, q.1)) :=
  pairingTable_canonical (some 1) (DsLimit.num 2) takeFirst validPick_takeFirst [0, 0, 1, 1]

/-! #### Counting machinery for the candidate pair lists -/

theorem sum_map_add_nat {α : Type} (l : List α) (f g : α → Nat) :
    (l.map fun a => f a + g a).sum = (l.map f).sum + (l.map g).sum := by
  induction l with
  | nil => rfl
  | cons a t ih =>
    simp only [List.map_cons, List.sum_cons, ih]
    omega

theorem sum_map_ite_nat {α : Type} (l : List α) (P : α → Bool) :
    (l.map fun a => if P a then 1 else 0).sum = l.countP P := by
  induction l with
  | nil => rfl
  | cons a t ih =>
    rw [List.map_cons, List.sum_cons, ih, List.countP_cons]
    by_cases h : P a <;> simp [h] <;> omega

theorem countP_range_getD (q : Int → Bool) (y : List Int) :
    ((List.range y.length).countP fun i => q (y.getD i 0)) = y.countP q := by
  induction y with
  | nil => rfl
  | cons b t ih =>
    rw [List.length_cons, List.range_succ_eq_map, List.countP_cons, List.countP_map]
    have e : ((fun i => q ((b :: t).getD i 0)) ∘ Nat.succ) = fun i => q (t.getD i 0) := by
      funext i
      simp
    rw [e, ih, List.countP_cons]
    simp

theorem countP_allPairs_snoc (n : Nat) (P Q : Nat × Nat → Bool)
    (hPQ : ∀ i j : Nat, i < n → j < n → Q (i, j) = P (i, j)) :
    (allPairs (n + 1)).countP Q =
      (allPairs n).countP P + ((List.range (n + 1)).countP fun j => Q (n, j)) +
        ((List.range n).countP fun i => Q (i, n)) := by
  rw [allPairs, allPairs, List.countP_flatMap, List.countP_flatMap]
  have eQ : (List.countP Q ∘ fun i => List.map (fun j => (i, j)) (List.range (n + 1))) =
      fun i => List.countP Q (List.map (fun j => (i, j)) (List.range (n + 1))) := rfl
  have eP : (List.countP P ∘ fun i => List.map (fun j => (i, j)) (List.range n)) =
      fun i => List.countP P (List.map (fun j => (i, j)) (List.range n)) := rfl
  rw [eQ, eP, List.range_succ, List.map_append, List.sum_append]
  have hlast : (List.map
      (fun i => List.countP Q (List.map (fun j => (i, j)) (List.range n ++ [n]))) [n]).sum =
      (List.range n ++ [n]).countP fun j => Q (n, j) := by
    simp only [List.map_cons, List.map_nil, List.sum_cons, List.sum_nil, Nat.add_zero]
    rw [List.countP_map]
    rfl
  have hstep : ∀ i ∈ List.range n,
      (fun i => List.countP Q (List.map (fun j => (i, j)) (List.range n ++ [n]))) i =
        ((fun i => List.countP P (List.map (fun j => (i, j)) (List.range n))) i) +
          ((fun i => if Q (i, n) then 1 else 0) i) := by
    intro i hi
    rw [List.mem_range] at hi
    show List.countP Q (List.map (fun j => (i, j)) (List.range n ++ [n])) =
      List.countP P (List.map (fun j => (i, j)) (List.range n)) +
        (if Q (i, n) then 1 else 0)
    rw [List.map_append, List.countP_append]
    congr 1
    · rw [List.countP_map, List.countP_map]
      apply List.countP_congr
      intro j hj
      rw [List.mem_range] at hj
      rw [Function.comp_apply, Function.comp_apply, hPQ i j hi hj]
    · simp only [List.map_cons, List.map_nil, List.countP_cons, List.countP_nil]
      omega
  rw [List.map_congr_left hstep,
    sum_map_add_nat (List.range n)
      (fun i => List.countP P (List.map (fun j => (i, j)) (List.range n)))
      (fun i => if Q (i, n) then 1 else 0),
    sum_map_ite_nat (List.range n) (fun i => Q (i, n)), hlast]
  omega

theorem length_rowsSame_snoc (y : List Int) (a : Int) :
    (rowsSame (y ++ [a])).length = (rowsSame y).length + y.count a := by
  rw [rowsSame, rowsSame, ← List.countP_eq_length_filter, ← List.countP_eq_length_filter]
  have hl : (y ++ [a]).length = y.length + 1 := by simp
  rw [hl, countP_allPairs_snoc y.length
    (fun p => decide (p.1 < p.2) && sameSource y p)
    (fun p => decide (p.1 < p.2) && sameSource (y ++ [a]) p)
    (by
      intro i j hi hj
      simp only [sameSource]
      rw [List.getD_append y [a] 0 i hi, List.getD_append y [a] 0 j hj])]
  have h1 : ((List.range (y.length + 1)).countP fun j =>
      decide ((y.length, j).1 < (y.length, j).2) && sameSource (y ++ [a]) (y.length, j)) = 0 := by
    rw [List.countP_eq_zero]
    intro j hj
    rw [List.mem_range] at hj
    have hlt : ¬((y.length, j).1 < (y.length, j).2) := by
      show ¬(y.length < j)
      omega
    simp [hlt]
  have h2 : ((List.range y.length).countP fun i =>
      decide ((i, y.length).1 < (i, y.length).2) && sameSource (y ++ [a]) (i, y.length)) =
      y.count a := by
    rw [List.count_eq_countP, ← countP_range_getD (fun b => b == a) y]
    apply List.countP_congr
    intro i hi
    rw [List.mem_range] at hi
    have e1 : (y ++ [a]).getD i 0 = y.getD i 0 := List.getD_append y [a] 0 i hi
    have e2 : (y ++ [a]).getD y.length 0 = a := by
      rw [List.getD_append_right y [a] 0 y.length (le_refl _)]
      simp
    show (decide (i < y.length) && ((y ++ [a]).getD i 0 == (y ++ [a]).getD y.length 0)) = true ↔
      (y.getD i 0 == a) = true
    rw [e1, e2]
    simp [hi]
  rw [h1, h2]
  omega

theorem length_rowsDiff_snoc (y : List Int) (a : Int) :
    (rowsDiff (y ++ [a])).length =
      (rowsDiff y).length + (y.countP fun b => !(b == a)) := by
  rw [rowsDiff, rowsDiff, ← List.countP_eq_length_filter, ← List.countP_eq_length_filter]
  have hl : (y ++ [a]).length = y.length + 1 := by simp
  rw [hl, countP_allPairs_snoc y.length
    (fun p => decide (p.1 < p.2) && !sameSource y p)
    (fun p => decide (p.1 < p.2) && !sameSource (y ++ [a]) p)
    (by
      intro i j hi hj
      simp only [sameSource]
      rw [List.getD_append y [a] 0 i hi, List.getD_append y [a] 0 j hj])]
  have h1 : ((List.range (y.length + 1)).countP fun j =>
      decide ((y.length, j).1 < (y.length, j).2) && !sameSource (y ++ [a]) (y.length, j)) = 0 := by
    rw [List.countP_eq_zero]
    intro j hj
    rw [List.mem_range] at hj
    have hlt : ¬((y.length, j).1 < (y.length, j).2) := by
      show ¬(y.length < j)
      omega
    simp [hlt]
  have h2 : ((List.range y.length).countP fun i =>
      decide ((i, y.length).1 < (i, y.length).2) && !sameSource (y ++ [a]) (i, y.length)) =
      (y.countP fun b => !(b == a)) := by
    rw [← countP_range_getD (fun b => !(b == a)) y]
    apply List.countP_congr
    intro i hi
    rw [List.mem_range] at hi
    have e1 : (y ++ [a]).getD i 0 = y.getD i 0 := List.getD_append y [a] 0 i hi
    have e2 : (y ++ [a]).getD y.length 0 = a := by
      rw [List.getD_append_right y [a] 0 y.length (le_refl _)]
      simp
    show (decide (i < y.length) && !((y ++ [a]).getD i 0 == (y ++ [a]).getD y.length 0)) = true ↔
      (!(y.getD i 0 == a)) = true
    rw [e1, e2]
    simp [hi]
  rw [h1, h2]
  omega

theorem countP_not_beq_eq_count {v0 v1 : Int} (hne : v0 ≠ v1) {y : List Int}
    (hy : ∀ b ∈ y, b = v0 ∨ b = v1) :
    (y.countP fun b => !(b == v0)) = y.count v1 := by
  rw [List.count_eq_countP]
  apply List.countP_congr
  intro b hb
  rcases hy b hb with rfl | rfl
  · simp [hne]
  · simp [Ne.symm hne]

/-- Same-source and different-source candidate counts for a two-class label
vector: the claimed binomial and product formulas. -/
theorem twoClass_pair_counts (v0 v1 : Int) (hne : v0 ≠ v1) :
    ∀ y : List Int, (∀ b ∈ y, b = v0 ∨ b = v1) →
      (rowsSame y).length = (y.count v0).choose 2 + (y.count v1).choose 2 ∧
      (rowsDiff y).length = y.count v0 * y.count v1 := by
  intro y
  induction y using List.reverseRecOn with
  | nil => intro _; exact ⟨rfl, rfl⟩
  | append_singleton y a ih =>
    intro hy
    have hy2 : ∀ b ∈ y, b = v0 ∨ b = v1 := fun b hb => hy b (by simp [hb])
    obtain ⟨ihs, ihd⟩ := ih hy2
    have hch : ∀ c : Nat, (c + 1).choose 2 = c.choose 2 + c := by
      intro c
      rw [show c + 1 = c.succ from rfl, show (2 : Nat) = Nat.succ 1 from rfl,
        Nat.choose_succ_succ, Nat.choose_one_right]
      omega
    rcases hy a (by simp) with rfl | rfl
    · have hx1 : (a == v1) = false := beq_eq_false_iff_ne.mpr hne
      have hx2 : (v1 == a) = false := beq_eq_false_iff_ne.mpr (Ne.symm hne)
      have c00 : (y ++ [a]).count a = y.count a + 1 := by
        simp [List.count_append]
      have c10 : (y ++ [a]).count v1 = y.count v1 := by
        simp [List.count_append, List.count_singleton, hx1, hx2]
      refine ⟨?_, ?_⟩
      · rw [length_rowsSame_snoc, ihs, c00, c10, hch]
        omega
      · rw [length_rowsDiff_snoc, ihd, c00, c10,
          countP_not_beq_eq_count hne hy2, Nat.succ_mul]
    · have hx1 : (a == v0) = false := beq_eq_false_iff_ne.mpr (fun h => hne h.symm)
      have hx2 : (v0 == a) = false := beq_eq_false_iff_ne.mpr hne
      have c01 : (y ++ [a]).count a = y.count a + 1 := by
        simp [List.count_append]
      have c11 : (y ++ [a]).count v0 = y.count v0 := by
        simp [List.count_append, List.count_singleton, hx1, hx2]
      have hnot2 : (y.countP fun b => !(b == a)) = y.count v0 :=
        countP_not_beq_eq_count (fun h => hne h.symm) (fun b hb => (hy2 b hb).symm)
      refine ⟨?_, ?_⟩
      · rw [length_rowsSame_snoc, ihs, c01, c11, hch]
        omega
      · rw [length_rowsDiff_snoc, ihd, c01, c11, hnot2, Nat.mul_succ]

theorem keptSame_none (pick : List (Nat × Nat) → Nat → List (Nat × Nat)) (y : List Int) :
    keptSame none pick y = rowsSame y := rfl

theorem keptDiff_noLimit (ss : Option Nat)
    (pick : List (Nat × Nat) → Nat → List (Nat × Nat)) (y : List Int) :
    keptDiff ss DsLimit.noLimit pick y = rowsDiff y := by
  rw [keptDiff]
  simp [dsCap]

/-! #### C5: pair counts with no limits -/

/-- C5: with both limits unset and exactly two label values, each present,
the transform yields `C(c0, 2) + C(c1, 2)` pairs labeled `1` and `c0 * c1`
pairs labeled `0`, where `c0`, `c1` are the class sizes. -/
theorem pairing_counts_no_limits (y : List Int) (v0 v1 : Int)
    (pick : List (Nat × Nat) → Nat → List (Nat × Nat))
    (hne : v0 ≠ v1) (h0 : v0 ∈ y) (h1 : v1 ∈ y)
    (hy : ∀ b ∈ y, b = v0 ∨ b = v1) :
    (pairingLabels none DsLimit.noLimit pick y).count 1 =
        (y.count v0).choose 2 + (y.count v1).choose 2 ∧
      (pairingLabels none DsLimit.noLimit pick y).count 0 =
        y.count v0 * y.count v1 := by
  obtain ⟨hs, hd⟩ := twoClass_pair_counts v0 v1 hne y hy
  rw [pairingLabels, keptSame_none, keptDiff_noLimit]
  rw [List.count_append, List.count_append, List.count_replicate, List.count_replicate,
    List.count_replicate, List.count_replicate]
  norm_num
  exact ⟨hs, hd⟩

/-- Witness for `pairing_counts_no_limits` at a concrete input. -/
theorem pairing_counts_no_limits_witness :
    (pairingLabels none DsLimit.noLimit takeFirst [0, 0, 1]).count 1 =
        (([0, 0, 1] : List Int).count 0).choose 2 +
          (([0, 0, 1] : List Int).count 1).choose 2 ∧
      (pairingLabels none DsLimit.noLimit takeFirst [0, 0, 1]).count 0 =
        ([0, 0, 1] : List Int).count 0 * ([0, 0, 1] : List Int).count 1 :=
  pairing_counts_no_limits [0, 0, 1] 0 1 takeFirst (by decide) (by decide) (by decide)
    (by decide)

/-! #### C1: balanced mode -/

/-- C1 counterexample: with `different_source_limit = 'balanced'` and
`y = [0,0,0,0,1]` there are 6 same-source candidates but only 4
different-source candidates; balanced mode only caps, so the output has 4
different-source pairs against 6 same-source pairs. -/
theorem balanced_counterexample :
    (pairingLabels none DsLimit.balanced takeFirst [0, 0, 0, 0, 1]).count 0 ≠
      (pairingLabels none DsLimit.balanced takeFirst [0, 0, 0, 0, 1]).count 1 := by
  decide

/-- C1 (amended): in balanced mode the different-source pair count equals
the minimum of the post-sampling same-source pair count and the
different-source candidate count. -/
theorem balanced_count (y : List Int) (ss : Option Nat)
    (pick : List (Nat × Nat) → Nat → List (Nat × Nat)) (hpick : ValidPick pick) :
    (pairingLabels ss DsLimit.balanced pick y).count 0 =
      min ((pairingLabels ss DsLimit.balanced pick y).count 1) (rowsDiff y).length := by
  have hc1 : (pairingLabels ss DsLimit.balanced pick y).count 1 =
      (keptSame ss pick y).length := by
    rw [pairingLabels, List.count_append, List.count_replicate, List.count_replicate]
    norm_num
  have hc0 : (pairingLabels ss DsLimit.balanced pick y).count 0 =
      (keptDiff ss DsLimit.balanced pick y).length := by
    rw [pairingLabels, List.count_append, List.count_replicate, List.count_replicate]
    norm_num
  rw [hc0, hc1, keptDiff]
  simp only [dsCap]
  by_cases h : (rowsDiff y).length > (keptSame ss pick y).length
  · rw [if_pos h,
      (hpick (rowsDiff y) (keptSame ss pick y).length (nodup_rowsDiff y) (by omega)).1]
    omega
  · rw [if_neg h]
    omega

/-- Witness for `balanced_count` at a concrete input. -/
theorem balanced_count_witness :
    (pairingLabels (some 2) DsLimit.balanced takeFirst [0, 0, 0, 1, 1]).count 0 =
      min ((pairingLabels (some 2) DsLimit.balanced takeFirst [0, 0, 0, 1, 1]).count 1)
        (rowsDiff [0, 0, 0, 1, 1]).length :=
  balanced_count [0, 0, 0, 1, 1] (some 2) takeFirst validPick_takeFirst

/-! #### C9: multi-class label vectors -/

theorem zip_replicate_self {α : Type} (l : List α) (c : Nat) :
    l.zip (List.replicate l.length c) = l.map fun x => (x, c) := by
  induction l with
  | nil => rfl
  | cons a t ih =>
    rw [List.length_cons, List.replicate_succ, List.zip_cons_cons, ih, List.map_cons]

/-- C9: a label vector with more than two distinct values is processed
without failure; with no limits, a canonical pair `(i, j)` appears labeled
`1` exactly when `y[i] == y[j]` and labeled `0` exactly when not. -/
theorem pairing_multiclass (y : List Int)
    (pick : List (Nat × Nat) → Nat → List (Nat × Nat)) (v0 v1 v2 : Int)
    (h0 : v0 ∈ y) (h1 : v1 ∈ y) (h2 : v2 ∈ y)
    (h01 : v0 ≠ v1) (h02 : v0 ≠ v2) (h12 : v1 ≠ v2)
    (i j : Nat) (hij : i < j) (hj : j < y.length) :
    (((i, j), 1) ∈ (pairingTable none DsLimit.noLimit pick y).zip
        (pairingLabels none DsLimit.noLimit pick y) ↔ y.getD i 0 = y.getD j 0) ∧
    (((i, j), 0) ∈ (pairingTable none DsLimit.noLimit pick y).zip
        (pairingLabels none DsLimit.noLimit pick y) ↔ y.getD i 0 ≠ y.getD j 0) := by
  rw [pairingTable, pairingLabels, keptSame_none, keptDiff_noLimit,
    List.zip_append (by simp), zip_replicate_self, zip_replicate_self]
  constructor
  · rw [List.mem_append]
    constructor
    · rintro (hmem | hmem)
      · rw [List.mem_map] at hmem
        obtain ⟨p, hp, heq⟩ := hmem
        obtain ⟨rfl, -⟩ := Prod.mk.injEq .. ▸ heq
        exact (mem_rowsSame.mp hp).2
      · rw [List.mem_map] at hmem
        obtain ⟨p, hp, heq⟩ := hmem
        exact absurd (congrArg Prod.snd heq) (by simp)
    · intro heq
      exact Or.inl (List.mem_map.mpr ⟨(i, j), mem_rowsSame.mpr ⟨⟨hij, hj⟩, heq⟩, rfl⟩)
  · rw [List.mem_append]
    constructor
    · rintro (hmem | hmem)
      · rw [List.mem_map] at hmem
        obtain ⟨p, hp, heq⟩ := hmem
        exact absurd (congrArg Prod.snd heq) (by simp)
      · rw [List.mem_map] at hmem
        obtain ⟨p, hp, heq⟩ := hmem
        obtain ⟨rfl, -⟩ := Prod.mk.injEq .. ▸ heq
        exact (mem_rowsDiff.mp hp).2
    · intro heq
      exact Or.inr (List.mem_map.mpr ⟨(i, j), mem_rowsDiff.mpr ⟨⟨hij, hj⟩, heq⟩, rfl⟩)

/-- Witness for `pairing_multiclass` at a concrete input. -/
theorem pairing_multiclass_witness :
    (((0, 1), 1) ∈ (pairingTable none DsLimit.noLimit takeFirst [3, 4, 5]).zip
        (pairingLabels none DsLimit.noLimit takeFirst [3, 4, 5]) ↔
      ([3, 4, 5] : List Int).getD 0 0 = ([3, 4, 5] : List Int).getD 1 0) ∧
    (((0, 1), 0) ∈ (pairingTable none DsLimit.noLimit takeFirst [3, 4, 5]).zip
        (pairingLabels none DsLimit.noLimit takeFirst [3, 4, 5]) ↔
      ([3, 4, 5] : List Int).getD 0 0 ≠ ([3, 4, 5] : List Int).getD 1 0) :=
  pairing_multiclass [3, 4, 5] takeFirst 3 4 5 (by decide) (by decide) (by decide)
    (by decide) (by decide) (by decide) 0 1 (by decide) (by decide)

/-! ### Pairwise Absolute-Difference Reducer (src/lir/transformers.py,
`AbsDiffTransformer`) -/

/-- A numpy array: its shape and its C-order flat data. -/
structure NpArray where
  shape : List Nat
  data : List Real

/-- 3-axis C-order cell access `A[i, j, k]`. -/
def NpArray.at3 (A : NpArray) (i j k : Nat) : Real :=
  A.data.getD ((i * A.shape.getD 1 0 + j) * A.shape.getD 2 0 + k) 0

/-- 2-axis C-order cell access `A[i, j]`. -/
def NpArray.at2 (A : NpArray) (i j : Nat) : Real :=
  A.data.getD (i * A.shape.getD 1 0 + j) 0

/-- Model of `AbsDiffTransformer.transform`: asserts a 3-axis input whose last axis
has size 2, then returns `np.abs(X[:,:,0] - X[:,:,1])`. -/
def absDiffTransform (A : NpArray) : Except ConvError NpArray :=
  if A.shape.length = 3 ∧ A.shape.getD 2 0 = 2 then
    .ok ⟨[A.shape.getD 0 0, A.shape.getD 1 0],
      (List.range (A.shape.getD 0 0 * A.shape.getD 1 0)).map fun k =>
        |A.data.getD (2 * k) 0 - A.data.getD (2 * k + 1) 0|⟩
  else .error .shapeMismatch

theorem getD_map_range {β : Type} (n k : Nat) (g : Nat → β) (d : β) (h : k < n) :
    ((List.range n).map g).getD k d = g k := by
  rw [List.getD_eq_getElem _ _ (by simpa using h)]
  simp

/-- C8: on a `(m, f, 2)` input the transform succeeds with a `(m, f)` output
whose every cell is the absolute difference of the two pair members; on any
input that is not 3-axis with last axis 2 it fails with the shape error. -/
theorem absDiff_spec (A : NpArray) (m f : Nat) :
    (A.shape = [m, f, 2] →
      ∃ B, absDiffTransform A = .ok B ∧ B.shape = [m, f] ∧
        ∀ i j, i < m → j < f → B.at2 i j = |A.at3 i j 0 - A.at3 i j 1|) ∧
    (¬(A.shape.length = 3 ∧ A.shape.getD 2 0 = 2) →
      absDiffTransform A = .error .shapeMismatch) := by
  constructor
  · intro hshape
    rw [absDiffTransform, if_pos (by rw [hshape]; exact ⟨rfl, rfl⟩)]
    refine ⟨_, rfl, by rw [hshape]; rfl, ?_⟩
    intro i j hi hj
    have hbound : i * f + j < m * f :=
      calc i * f + j < i * f + f := Nat.add_lt_add_left hj _
        _ = (i + 1) * f := (Nat.succ_mul i f).symm
        _ ≤ m * f := Nat.mul_le_mul_right f hi
    rw [NpArray.at2, NpArray.at3, NpArray.at3, hshape]
    show ((List.range ([m, f, 2].getD 0 0 * [m, f, 2].getD 1 0)).map fun k =>
        |A.data.getD (2 * k) 0 - A.data.getD (2 * k + 1) 0|).getD
          (i * [m, f].getD 1 0 + j) 0 = _
    have e0 : [m, f, 2].getD 0 0 = m := rfl
    have e1 : [m, f, 2].getD 1 0 = f := rfl
    have e2 : [m, f, 2].getD 2 0 = 2 := rfl
    have e3 : ([m, f] : List Nat).getD 1 0 = f := rfl
    rw [e0, e1, e2, e3, getD_map_range (m * f) (i * f + j) _ 0 hbound]
    have i1 : 2 * (i * f + j) = (i * f + j) * 2 + 0 := by ring
    have i2 : 2 * (i * f + j) + 1 = (i * f + j) * 2 + 1 := by ring
    rw [i2, i1]
  · intro h
    rw [absDiffTransform, if_neg h]

/-- Witness for `absDiff_spec` at concrete inputs. -/
theorem absDiff_spec_witness :
    (∃ B, absDiffTransform ⟨[1, 1, 2], [3, 5]⟩ = .ok B ∧ B.shape = [1, 1] ∧
        ∀ i j, i < 1 → j < 1 →
          B.at2 i j =
            |NpArray.at3 ⟨[1, 1, 2], [3, 5]⟩ i j 0 - NpArray.at3 ⟨[1, 1, 2], [3, 5]⟩ i j 1|) ∧
      absDiffTransform ⟨[2], [0, 0]⟩ = .error .shapeMismatch :=
  ⟨(absDiff_spec ⟨[1, 1, 2], [3, 5]⟩ 1 1).1 rfl,
   (absDiff_spec ⟨[2], [0, 0]⟩ 0 0).2 (by decide)⟩

/-! ### Empirical-CDF Transformer (src/lir/transformers.py,
`GaussianCdfTransformer`) -/

open MeasureTheory ProbabilityTheory

/-- Model of `scipy.stats.norm.cdf(x, m, s)`: the Gaussian cumulative distribution
function with mean `m` and standard deviation `s`, modelled over the reals
as the integral of the Gaussian density. -/
noncomputable def normCdf (m s x : Real) : Real :=
  ∫ t in Set.Iic x, gaussianPDFReal m (Real.toNNReal (s ^ 2)) t

theorem toNNReal_sq_ne_zero {s : Real} (hs : 0 < s) : Real.toNNReal (s ^ 2) ≠ 0 :=
  (Real.toNNReal_pos.mpr (by positivity)).ne'

theorem normCdf_pos (m s x : Real) (hs : 0 < s) : 0 < normCdf m s x := by
  have hv := toNNReal_sq_ne_zero hs
  set v := Real.toNNReal (s ^ 2)
  have hint := integrable_gaussianPDFReal m v
  have h1 : (0 : Real) < ∫ t in Set.Ioc (x - 1) x, gaussianPDFReal m v t := by
    have h0 := intervalIntegral.intervalIntegral_pos_of_pos
      (f := gaussianPDFReal m v) (a := x - 1) (b := x)
      hint.intervalIntegrable (fun t => gaussianPDFReal_pos m v t hv) (by linarith)
    rwa [intervalIntegral.integral_of_le (by linarith)] at h0
  have h2 : (∫ t in Set.Ioc (x - 1) x, gaussianPDFReal m v t) ≤
      ∫ t in Set.Iic x, gaussianPDFReal m v t :=
    setIntegral_mono_set hint.integrableOn
      (ae_of_all _ fun t => gaussianPDFReal_nonneg m v t)
      (HasSubset.Subset.eventuallyLE Set.Ioc_subset_Iic_self)
  rw [normCdf]
  linarith

theorem normCdf_lt_one (m s x : Real) (hs : 0 < s) : normCdf m s x < 1 := by
  have hv := toNNReal_sq_ne_zero hs
  set v := Real.toNNReal (s ^ 2)
  have hint := integrable_gaussianPDFReal m v
  have htot : (∫ t in Set.Iic x, gaussianPDFReal m v t) +
      (∫ t in Set.Ioi x, gaussianPDFReal m v t) = 1 := by
    rw [intervalIntegral.integral_Iic_add_Ioi hint.integrableOn hint.integrableOn]
    exact integral_gaussianPDFReal_eq_one m hv
  have h1 : (0 : Real) < ∫ t in Set.Ioc x (x + 1), gaussianPDFReal m v t := by
    have h0 := intervalIntegral.intervalIntegral_pos_of_pos
      (f := gaussianPDFReal m v) (a := x) (b := x + 1)
      hint.intervalIntegrable (fun t => gaussianPDFReal_pos m v t hv) (by linarith)
    rwa [intervalIntegral.integral_of_le (by linarith)] at h0
  have h2 : (∫ t in Set.Ioc x (x + 1), gaussianPDFReal m v t) ≤
      ∫ t in Set.Ioi x, gaussianPDFReal m v t :=
    setIntegral_mono_set hint.integrableOn
      (ae_of_all _ fun t => gaussianPDFReal_nonneg m v t)
      (HasSubset.Subset.eventuallyLE Set.Ioc_subset_Ioi_self)
  rw [normCdf]
  linarith

theorem normCdf_mean (m s : Real) (hs : 0 < s) : normCdf m s m = 1 / 2 := by
  have hv := toNNReal_sq_ne_zero hs
  rw [normCdf]
  set v := Real.toNNReal (s ^ 2)
  have hint := integrable_gaussianPDFReal m v
  have hshift : (∫ t in Set.Iic m, gaussianPDFReal m v t) =
      ∫ t in Set.Iic 0, gaussianPDFReal 0 v t := by
    have h1 := (measurePreserving_add_right volume m).setIntegral_preimage_emb
      (MeasurableEquiv.addRight m).measurableEmbedding
      (gaussianPDFReal m v) (Set.Iic m)
    rw [Set.preimage_add_const_Iic, sub_self] at h1
    rw [← h1]
    apply setIntegral_congr_fun measurableSet_Iic
    intro t _
    simp [gaussianPDFReal]
  have hshift2 : (∫ t in Set.Ioi m, gaussianPDFReal m v t) =
      ∫ t in Set.Ioi 0, gaussianPDFReal 0 v t := by
    have h1 := (measurePreserving_add_right volume m).setIntegral_preimage_emb
      (MeasurableEquiv.addRight m).measurableEmbedding
      (gaussianPDFReal m v) (Set.Ioi m)
    rw [Set.preimage_add_const_Ioi, sub_self] at h1
    rw [← h1]
    apply setIntegral_congr_fun measurableSet_Ioi
    intro t _
    simp [gaussianPDFReal]
  have hrefl : (∫ t in Set.Iic (0 : Real), gaussianPDFReal 0 v t) =
      ∫ t in Set.Ioi (0 : Real), gaussianPDFReal 0 v t := by
    have h1 : (∫ t in Set.Iic (0 : Real), gaussianPDFReal 0 v (-t)) =
        ∫ t in Set.Ioi (-(0 : Real)), gaussianPDFReal 0 v t :=
      integral_comp_neg_Iic 0 (gaussianPDFReal 0 v)
    rw [neg_zero] at h1
    rw [← h1]
    apply setIntegral_congr_fun measurableSet_Iic
    intro t _
    simp [gaussianPDFReal]
  have htot : (∫ t in Set.Iic m, gaussianPDFReal m v t) +
      (∫ t in Set.Ioi m, gaussianPDFReal m v t) = 1 := by
    rw [intervalIntegral.integral_Iic_add_Ioi hint.integrableOn hint.integrableOn]
    exact integral_gaussianPDFReal_eq_one m hv
  linarith

/-- Per-feature population mean `np.mean(X, axis=0)`. -/
noncomputable def colMean (X : List (List Real)) (j : Nat) : Real :=
  (X.map fun r => r.getD j 0).sum / X.length

/-- Per-feature population variance (the square of `np.std(X, axis=0)`). -/
noncomputable def colVar (X : List (List Real)) (j : Nat) : Real :=
  (X.map fun r => (r.getD j 0 - colMean X j) ^ 2).sum / X.length

/-- Per-feature population standard deviation `np.std(X, axis=0)`. -/
noncomputable def colStd (X : List (List Real)) (j : Nat) : Real :=
  Real.sqrt (colVar X j)

open Classical in
/-- Mask `self._valid_features = self._std > 0`: the retained feature indices in
ascending order. -/
noncomputable def validFeatures (X : List (List Real)) (f : Nat) : List Nat :=
  (List.range f).filter fun j => decide (0 < colStd X j)

/-- The fitted state: retained feature indices with their masked means and
standard deviations. -/
structure GaussianCdfFit where
  valid : List Nat
  mean : List Real
  std : List Real

/-- Model of `GaussianCdfTransformer.fit`. -/
noncomputable def GaussianCdf_fit (X : List (List Real)) (f : Nat) : GaussianCdfFit :=
  ⟨validFeatures X f, (validFeatures X f).map (colMean X),
    (validFeatures X f).map (colStd X)⟩

/-- One row of `GaussianCdfTransformer.transform`: select the retained
columns, then apply the Gaussian cdf with the per-column fitted mean and
standard deviation. -/
noncomputable def GaussianCdf_transformRow (st : GaussianCdfFit) (r : List Real) :
    List Real :=
  (st.valid.zip (st.mean.zip st.std)).map fun t => normCdf t.2.1 t.2.2 (r.getD t.1 0)

/-- Model of `GaussianCdfTransformer.transform` applied row-wise. -/
noncomputable def GaussianCdf_transform (st : GaussianCdfFit) (Z : List (List Real)) :
    List (List Real) :=
  Z.map fun r => GaussianCdf_transformRow st r

theorem zip_self_map {α β : Type} (l : List α) (k : α → β) :
    l.zip (l.map k) = l.map fun a => (a, k a) := by
  induction l with
  | nil => rfl
  | cons a t ih => rw [List.map_cons, List.zip_cons_cons, ih, List.map_cons]

theorem transformRow_fit (X : List (List Real)) (f : Nat) (r : List Real) :
    GaussianCdf_transformRow (GaussianCdf_fit X f) r =
      (validFeatures X f).map fun j => normCdf (colMean X j) (colStd X j) (r.getD j 0) := by
  simp only [GaussianCdf_transformRow, GaussianCdf_fit]
  rw [List.zip_map' (colMean X) (colStd X) (validFeatures X f), zip_self_map, List.map_map]
  rfl

theorem getD_map_indexOf {β : Type} (l : List Nat) (g : Nat → β) (d : β) (j : Nat)
    (hj : j ∈ l) : (l.map g).getD (l.indexOf j) d = g j := by
  induction l with
  | nil => simp at hj
  | cons a t ih =>
    by_cases h : a = j
    · subst h
      simp [List.indexOf_cons]
    · have hjt : j ∈ t := by
        rcases List.mem_cons.mp hj with rfl | hjt
        · exact absurd rfl h
        · exact hjt
      have hb : (a == j) = false := by simpa using h
      rw [List.map_cons, List.indexOf_cons, hb]
      simp only [Bool.cond_false]
      rw [List.getD_cons_succ]
      exact ih hjt

/-- C7: after fitting on a population with at least one positive-deviation
feature, the transform output has one row per input row and one column per
retained feature, all its values lie in the open interval `(0, 1)`, and a
value equal to a retained feature's fitted mean maps to exactly `1/2`. -/
theorem gaussianCdf_spec (X Z : List (List Real)) (f : Nat)
    (hfeat : ∃ j, j < f ∧ 0 < colStd X j) :
    (GaussianCdf_transform (GaussianCdf_fit X f) Z).length = Z.length ∧
    (∀ row ∈ GaussianCdf_transform (GaussianCdf_fit X f) Z,
      row.length = (validFeatures X f).length) ∧
    (∀ row ∈ GaussianCdf_transform (GaussianCdf_fit X f) Z,
      ∀ x ∈ row, 0 < x ∧ x < 1) ∧
    (∀ r ∈ Z, ∀ j ∈ validFeatures X f, r.getD j 0 = colMean X j →
      (GaussianCdf_transformRow (GaussianCdf_fit X f) r).getD
        ((validFeatures X f).indexOf j) 0 = 1 / 2) := by
  have hstd : ∀ j ∈ validFeatures X f, 0 < colStd X j := by
    intro j hjv
    rw [validFeatures, List.mem_filter] at hjv
    exact of_decide_eq_true hjv.2
  refine ⟨by simp [GaussianCdf_transform], ?_, ?_, ?_⟩
  · intro row hrow
    rw [GaussianCdf_transform, List.mem_map] at hrow
    obtain ⟨r, hr, rfl⟩ := hrow
    rw [transformRow_fit, List.length_map]
  · intro row hrow x hx
    rw [GaussianCdf_transform, List.mem_map] at hrow
    obtain ⟨r, hr, rfl⟩ := hrow
    rw [transformRow_fit, List.mem_map] at hx
    obtain ⟨j, hjv, rfl⟩ := hx
    exact ⟨normCdf_pos _ _ _ (hstd j hjv), normCdf_lt_one _ _ _ (hstd j hjv)⟩
  · intro r hr j hjv heq
    rw [transformRow_fit, getD_map_indexOf _ _ _ _ hjv, heq,
      normCdf_mean _ _ (hstd j hjv)]

/-- Witness for `gaussianCdf_spec` at a concrete input: the population
`[[0, 5], [2, 5]]` has feature 0 with standard deviation 1 and feature 1
constant. -/
theorem gaussianCdf_spec_witness :
    (GaussianCdf_transform (GaussianCdf_fit ([[0, 5], [2, 5]]) 2) ([[1, 9]])).length = 1 :=
  (gaussianCdf_spec ([[0, 5], [2, 5]]) ([[1, 9]]) 2
    ⟨0, by norm_num, by
      rw [colStd, Real.sqrt_pos]
      norm_num [colVar, colMean]⟩).1
